import Mathlib

/-!
Verification of the truncated-hash adapter (Botan `Truncated_Hash`,
src/lib/hash/trunc_hash/trunc_hash.cpp) against its design specification.

The adapter wraps an incremental hash capability and truncates its digest to a
configured bit length.  The wrapped hash is modelled as a value of `HashSpec`:
a native output length in bytes together with a digest function from the
accumulated input bytes to the native digest bytes.  The wrapped hash state is
the list of bytes accumulated so far; `update` appends, `final` applies the
digest function and resets the accumulation.  Bytes are `Nat` values with the
byte range stated as well-formedness where it matters.  Machine arithmetic from
the C++ (`uint8_t` masking) is embedded with explicit `% 256` truncation.

Partial operations (the constructor argument checks, the assertion and the span
accesses in `final_result`) are embedded as `Except`/`Option` results.
-/

namespace TruncHash

/-- The external incremental hash capability consumed by the adapter:
a native output length in bytes (`output_length()` of the wrapped hash) and the
digest it produces for a given accumulated input. -/
structure HashSpec where
  nativeBytes : Nat
  digest : List Nat → List Nat

/-- Well-formedness of the wrapped hash: every digest has the native length and
all digest values are bytes. -/
def HashSpec.WF (H : HashSpec) : Prop :=
  (∀ m, (H.digest m).length = H.nativeBytes) ∧ (∀ m, ∀ b ∈ H.digest m, b < 256)

/-- State of the adapter: the wrapped hash specification, the configured output
bit count `m_output_bits`, the wrapped hash state (accumulated input bytes,
`m_hash`), and the internal scratch buffer `m_buffer`. -/
structure Truncated_Hash where
  H : HashSpec
  m_output_bits : Nat
  m_acc : List Nat
  m_buffer : List Nat

/-- The constructor `Truncated_Hash::Truncated_Hash(hash, bits)`.  It takes the
wrapped hash (specification plus current accumulated state `acc`) and the bit
count; it checks `bits > 0` and `bits <= m_hash->output_length() * 8`, failing
with the argument-check error otherwise, and sizes the scratch buffer to the
native output length (value-initialized to zero). -/
def construct (H : HashSpec) (acc : List Nat) (bits : Nat) :
    Except String Truncated_Hash :=
  if bits = 0 then
    Except.error "Truncating a hash to empty does not make sense"
  else if H.nativeBytes * 8 < bits then
    Except.error "Underlying hash function does not produce enough bits for truncation"
  else
    Except.ok ⟨H, bits, acc, List.replicate H.nativeBytes 0⟩

/-- Method `Truncated_Hash::add_data`: forwards the input to the wrapped hash
incremental update, which appends it to the accumulated input. -/
def Truncated_Hash.add_data (t : Truncated_Hash) (input : List Nat) :
    Truncated_Hash :=
  { t with m_acc := t.m_acc ++ input }

/-- Method `Truncated_Hash::output_length`: the code computes
`(m_output_bits + 7) / 8`. -/
def Truncated_Hash.output_length (t : Truncated_Hash) : Nat :=
  (t.m_output_bits + 7) / 8

/-- The value `bits_in_last_byte = ((m_output_bits - 1) % 8) + 1` computed in
`final_result` (natural subtraction agrees with the C++ `size_t` arithmetic
because the expression is only used with `bits >= 1`). -/
def bits_in_last_byte (bits : Nat) : Nat :=
  ((bits - 1) % 8) + 1

/-- The mask expression of the code, `~((1 << (8 - b)) - 1)` assigned to a
`uint8_t`: for `0 <= x < 256` the byte-truncated complement `~x` is `255 - x`. -/
def bitmask_code (b : Nat) : Nat :=
  255 - ((1 <<< (8 - b)) - 1)

/-- The mask as the specification describes it: `0xFF << (8 - b)` truncated to
one byte. -/
def bitmask_spec (b : Nat) : Nat :=
  (255 <<< (8 - b)) % 256

/-- Apply `x &= mask` to the last element of a list, modelling
`out.back() &= bitmask`. -/
def maskLast (mask : Nat) : List Nat → List Nat
  | [] => []
  | [x] => [x &&& mask]
  | x :: y :: xs => x :: maskLast mask (y :: xs)

/-- Method `Truncated_Hash::final_result`:
1. assert `m_hash->output_length() * 8 >= m_output_bits` (assertion failure is
   modelled as `none`);
2. finalize the wrapped hash into the scratch buffer, resetting the wrapped
   hash state;
3. copy the first `output_length()` bytes of the buffer into the output span
   (reading past the buffer, or taking `back()` of an empty span, is undefined
   behaviour, modelled as `none`);
4. zeroise the scratch buffer;
5. clear the unwanted low bits of the last output byte with the mask. -/
def Truncated_Hash.final_result (t : Truncated_Hash) :
    Option (List Nat × Truncated_Hash) :=
  if t.H.nativeBytes * 8 < t.m_output_bits then
    none
  else
    let d := t.H.digest t.m_acc
    let bytes := t.output_length
    if bytes ≤ d.length ∧ 1 ≤ bytes then
      some (maskLast (bitmask_code (bits_in_last_byte t.m_output_bits)) (List.take bytes d),
            { t with m_acc := [], m_buffer := List.replicate t.m_buffer.length 0 })
    else
      none

/-- Method `Truncated_Hash::copy_state`: builds a new adapter through the
constructor from a deep copy of the current wrapped hash state and the same
bit count. -/
def Truncated_Hash.copy_state (t : Truncated_Hash) : Except String Truncated_Hash :=
  construct t.H t.m_acc t.m_output_bits

/-- Method `Truncated_Hash::new_object`: builds a new adapter through the
constructor from a fresh (empty-state) instance of the wrapped hash and the
same bit count. -/
def Truncated_Hash.new_object (t : Truncated_Hash) : Except String Truncated_Hash :=
  construct t.H [] t.m_output_bits

/-- Method `Truncated_Hash::clear`: resets the wrapped hash to its initial
empty state; nothing else is touched. -/
def Truncated_Hash.clear (t : Truncated_Hash) : Truncated_Hash :=
  { t with m_acc := [] }

/-- The configuration invariant established by the constructor checks. -/
def Valid (t : Truncated_Hash) : Prop :=
  1 ≤ t.m_output_bits ∧ t.m_output_bits ≤ t.H.nativeBytes * 8

/-- A heap of adapter instances, used to state isolation between an adapter
and a state copy of it: each index is one live adapter. -/
def worldUpdate (w : List Truncated_Hash) (i : Nat) (bs : List Nat) :
    List Truncated_Hash :=
  match w[i]? with
  | some t => w.set i (t.add_data bs)
  | none => w

/-- Run `copy_state` on the adapter at index `i` and append the new adapter at
the end of the heap. -/
def worldCopy (w : List Truncated_Hash) (i : Nat) : List Truncated_Hash :=
  match w[i]? with
  | some t =>
    match t.copy_state with
    | Except.ok t2 => w ++ [t2]
    | Except.error _ => w
  | none => w

/-- A small concrete hash used to instantiate the theorems: 2 native bytes,
digest is the input length and a simple checksum. -/
def toyHash : HashSpec where
  nativeBytes := 2
  digest m := [m.length % 256, (m.foldl (fun a b => a + b) 37) % 256]

/-- A concrete valid adapter over `toyHash` truncating to 12 bits. -/
def tval : Truncated_Hash :=
  ⟨toyHash, 12, [], List.replicate 2 0⟩

/-- A concrete valid adapter over `toyHash` at the full native width (16 bits). -/
def tval16 : Truncated_Hash :=
  ⟨toyHash, 16, [], List.replicate 2 0⟩

theorem toyHash_wf : toyHash.WF := by
  constructor
  · intro m; rfl
  · intro m b hb
    simp only [toyHash, List.mem_cons, List.not_mem_nil, or_false] at hb
    rcases hb with h | h <;> subst h <;> exact Nat.mod_lt _ (by norm_num)

theorem construct_eq_ok (H : HashSpec) (acc : List Nat) (bits : Nat)
    (t : Truncated_Hash) :
    construct H acc bits = Except.ok t ↔
      1 ≤ bits ∧ bits ≤ H.nativeBytes * 8 ∧
        t = ⟨H, bits, acc, List.replicate H.nativeBytes 0⟩ := by
  unfold construct
  split_ifs with h1 h2
  · constructor
    · intro h; exact absurd h (by simp)
    · intro h; omega
  · constructor
    · intro h; exact absurd h (by simp)
    · intro h; omega
  · constructor
    · intro h
      injection h with h
      exact ⟨by omega, by omega, h.symm⟩
    · intro h
      rw [h.2.2]

theorem maskLast_length (mask : Nat) (l : List Nat) :
    (maskLast mask l).length = l.length := by
  induction l with
  | nil => rfl
  | cons x xs ih =>
    cases xs with
    | nil => rfl
    | cons y ys => simpa [maskLast] using ih

theorem maskLast_getElem_lt (mask : Nat) (l : List Nat) (i : Nat)
    (h : i + 1 < l.length) : (maskLast mask l)[i]? = l[i]? := by
  induction l generalizing i with
  | nil => rfl
  | cons x xs ih =>
    cases xs with
    | nil => simp at h
    | cons y ys =>
      cases i with
      | zero => simp [maskLast]
      | succ j =>
        simp only [maskLast, List.getElem?_cons_succ]
        exact ih j (by simpa using h)

theorem maskLast_getLast (mask : Nat) (l : List Nat) (h : l ≠ []) :
    (maskLast mask l).getLast? = Option.map (fun x => x &&& mask) l.getLast? := by
  induction l with
  | nil => simp at h
  | cons x xs ih =>
    cases xs with
    | nil => rfl
    | cons y ys =>
      have h2 : (y :: ys) ≠ [] := by simp
      simp only [maskLast]
      rw [List.getLast?_cons_cons, ← ih h2]
      cases ys with
      | nil => rfl
      | cons z zs => simp [maskLast, List.getLast?_cons_cons]

theorem and_mod_two_pow_eq_zero (x mask k : Nat)
    (h : ∀ i, i < k → mask.testBit i = false) : (x &&& mask) % 2 ^ k = 0 := by
  apply Nat.eq_of_testBit_eq
  intro i
  rw [Nat.testBit_mod_two_pow, Nat.zero_testBit, Nat.testBit_and]
  by_cases hik : i < k
  · simp [h i hik]
  · simp [hik]

theorem and_255_eq (x : Nat) (h : x < 256) : x &&& 255 = x := by
  apply Nat.eq_of_testBit_eq
  intro i
  rw [Nat.testBit_and]
  by_cases hi : i < 8
  · have h255 : ∀ j, j < 8 → Nat.testBit 255 j = true := by decide
    simp [h255 i hi]
  · have hx : Nat.testBit x i = false := by
      apply Nat.testBit_lt_two_pow
      calc x < 256 := h
        _ = 2 ^ 8 := by norm_num
        _ ≤ 2 ^ i := Nat.pow_le_pow_right (by norm_num) (by omega)
    simp [hx]

theorem maskLast_and255 (l : List Nat) (h : ∀ x ∈ l, x < 256) :
    maskLast 255 l = l := by
  induction l with
  | nil => rfl
  | cons x xs ih =>
    cases xs with
    | nil => simp [maskLast, and_255_eq x (h x (by simp))]
    | cons y ys =>
      simp only [maskLast, List.cons.injEq, true_and]
      exact ih (fun z hz => h z (List.mem_cons_of_mem x hz))

theorem bitmask_code_eq_spec (b : Nat) (h1 : 1 ≤ b) (h2 : b ≤ 8) :
    bitmask_code b = bitmask_spec b := by
  have key : ∀ c, c < 9 → 1 ≤ c → bitmask_code c = bitmask_spec c := by decide
  exact key b (by omega) h1

theorem bitmask_spec_low_bits (b : Nat) (h1 : 1 ≤ b) (h2 : b ≤ 8) :
    ∀ i, i < 8 - b → (bitmask_spec b).testBit i = false := by
  have key : ∀ c, c < 9 → ∀ i, i < 8 → (1 ≤ c → i < 8 - c →
      (bitmask_spec c).testBit i = false) := by decide
  intro i hi
  exact key b (by omega) i (by omega) h1 hi

/-- C1: for every adapter constructed with valid outputBits and every message,
finalize returns exactly ceil(outputBits/8) bytes: the first bytes of the
native digest, with the last byte ANDed with the mask 0xFF << (8 - b) where
b = ((outputBits - 1) mod 8) + 1, so its low 7 - ((outputBits - 1) mod 8) bits
are zero and every other byte is unchanged; the code expression
~((1 << (8 - b)) - 1) computes exactly this mask for every b in 1..8. -/
theorem final_result_truncates (H : HashSpec) (bits : Nat) (t : Truncated_Hash)
    (m : List Nat) (hc : construct H [] bits = Except.ok t) (hwf : H.WF) :
    ∃ out t2,
      (t.add_data m).final_result = some (out, t2) ∧
      out.length = (bits + 7) / 8 ∧
      out = maskLast (bitmask_spec (bits_in_last_byte bits))
              (List.take ((bits + 7) / 8) (H.digest m)) ∧
      (∀ i, i + 1 < out.length → out[i]? = (H.digest m)[i]?) ∧
      (∀ x, out.getLast? = some x → x % 2 ^ (7 - (bits - 1) % 8) = 0) ∧
      (∀ b, 1 ≤ b → b ≤ 8 → bitmask_code b = bitmask_spec b) := by
  obtain ⟨hb1, hb2, ht⟩ := (construct_eq_ok H [] bits t).mp hc
  subst ht
  obtain ⟨hlen, hbyte⟩ := hwf
  have hbl1 : 1 ≤ bits_in_last_byte bits := by simp [bits_in_last_byte]
  have hbl8 : bits_in_last_byte bits ≤ 8 := by
    have := Nat.mod_lt (bits - 1) (y := 8) (by norm_num)
    simp only [bits_in_last_byte]
    omega
  have hb_le : (bits + 7) / 8 ≤ (H.digest m).length := by rw [hlen m]; omega
  have hb_ge : 1 ≤ (bits + 7) / 8 := by omega
  have hfr : (Truncated_Hash.add_data ⟨H, bits, [], List.replicate H.nativeBytes 0⟩ m).final_result
      = some (maskLast (bitmask_code (bits_in_last_byte bits))
                (List.take ((bits + 7) / 8) (H.digest m)),
              ⟨H, bits, [], List.replicate H.nativeBytes 0⟩) := by
    simp only [Truncated_Hash.add_data, List.nil_append]
    unfold Truncated_Hash.final_result
    simp only [Truncated_Hash.output_length]
    rw [if_neg (by omega), if_pos ⟨hb_le, hb_ge⟩]
    simp [List.length_replicate]
  refine ⟨_, _, hfr, ?_, ?_, ?_, ?_, bitmask_code_eq_spec⟩
  · rw [maskLast_length, List.length_take]
    exact min_eq_left hb_le
  · rw [bitmask_code_eq_spec _ hbl1 hbl8]
  · intro i hi
    rw [maskLast_length, List.length_take, min_eq_left hb_le] at hi
    rw [maskLast_getElem_lt _ _ _ (by rw [List.length_take, min_eq_left hb_le]; exact hi)]
    rw [List.getElem?_take, if_pos (by omega)]
  · intro x hx
    have hne : List.take ((bits + 7) / 8) (H.digest m) ≠ [] := by
      intro hcon
      have := congrArg List.length hcon
      rw [List.length_take, min_eq_left hb_le] at this
      simp at this
      omega
    rw [maskLast_getLast _ _ hne, Option.map_eq_some'] at hx
    obtain ⟨y, hy, hxy⟩ := hx
    subst hxy
    have hk : 7 - (bits - 1) % 8 = 8 - bits_in_last_byte bits := by
      simp only [bits_in_last_byte]; omega
    rw [hk]
    refine and_mod_two_pow_eq_zero y _ _ (fun i hi => ?_)
    rw [bitmask_code_eq_spec _ hbl1 hbl8]
    exact bitmask_spec_low_bits _ hbl1 hbl8 i hi

/-- Witness for C1 at the concrete adapter tval (12 bits over toyHash) and
message [1, 2, 3]. -/
theorem final_result_truncates_witness :
    ∃ out t2,
      (Truncated_Hash.add_data tval [1, 2, 3]).final_result = some (out, t2) ∧
      out.length = (12 + 7) / 8 ∧
      out = maskLast (bitmask_spec (bits_in_last_byte 12))
              (List.take ((12 + 7) / 8) (toyHash.digest [1, 2, 3])) ∧
      (∀ i, i + 1 < out.length → out[i]? = (toyHash.digest [1, 2, 3])[i]?) ∧
      (∀ x, out.getLast? = some x → x % 2 ^ (7 - (12 - 1) % 8) = 0) ∧
      (∀ b, 1 ≤ b → b ≤ 8 → bitmask_code b = bitmask_spec b) :=
  final_result_truncates toyHash 12 tval [1, 2, 3] rfl toyHash_wf

/-- C2: construction fails (with the invalid-configuration argument error) if
and only if outputBits is zero or exceeds the native bit capacity of the
wrapped hash; outputBits = 0 and outputBits = nativeBits + 1 always fail and
everything in between succeeds. -/
theorem construct_invalid_iff (H : HashSpec) (bits : Nat) :
    ((∃ e, construct H [] bits = Except.error e) ↔
      bits = 0 ∨ H.nativeBytes * 8 < bits) ∧
    (∃ e, construct H [] 0 = Except.error e) ∧
    (∃ e, construct H [] (H.nativeBytes * 8 + 1) = Except.error e) ∧
    (1 ≤ bits → bits ≤ H.nativeBytes * 8 →
      ∃ t, construct H [] bits = Except.ok t) := by
  refine ⟨?_, ?_, ?_, ?_⟩
  · unfold construct
    split_ifs with h1 h2
    · simp [h1]
    · simp [h2]
    · simp
      omega
  · unfold construct
    simp
  · unfold construct
    rw [if_neg (by omega), if_pos (by omega)]
    simp
  · intro hge hle
    exact ⟨_, (construct_eq_ok H [] bits _).mpr ⟨hge, hle, rfl⟩⟩

/-- C3: when outputBits equals the native bit length of the wrapped hash,
finalize reproduces the untruncated native digest byte for byte, and for every
outputBits that is a multiple of 8 the computed mask is all ones. -/
theorem full_width_identity (H : HashSpec) (t : Truncated_Hash) (m : List Nat)
    (hc : construct H [] (H.nativeBytes * 8) = Except.ok t) (hwf : H.WF) :
    Option.map Prod.fst ((t.add_data m).final_result) = some (H.digest m) ∧
    (∀ n, 1 ≤ n → n % 8 = 0 →
      bitmask_code (bits_in_last_byte n) = 255) := by
  obtain ⟨hb1, hb2, ht⟩ := (construct_eq_ok H [] _ t).mp hc
  subst ht
  obtain ⟨hlen, hbyte⟩ := hwf
  have hmask : ∀ n, 1 ≤ n → n % 8 = 0 → bitmask_code (bits_in_last_byte n) = 255 := by
    intro n h1 h8
    have : bits_in_last_byte n = 8 := by
      simp only [bits_in_last_byte]
      omega
    rw [this]
    decide
  refine ⟨?_, hmask⟩
  have hnb : 1 ≤ H.nativeBytes := by omega
  have hbytes : (H.nativeBytes * 8 + 7) / 8 = H.nativeBytes := by omega
  simp only [Truncated_Hash.add_data, List.nil_append]
  unfold Truncated_Hash.final_result
  simp only [Truncated_Hash.output_length]
  rw [if_neg (by omega), if_pos ⟨by rw [hlen m]; omega, by omega⟩]
  simp only [Option.map_some, hbytes]
  rw [hmask _ (by omega) (by omega)]
  rw [← hlen m, List.take_length, maskLast_and255 _ (hbyte m)]
  simp

/-- C5: outputLength returns ceil(outputBits / 8); it is a pure function of the
configuration, unchanged by feeding data, and (bits + 7) / 8 is exactly the
ceiling of bits / 8 for every bits >= 1. -/
theorem output_length_ceil (H : HashSpec) (bits : Nat) (t : Truncated_Hash)
    (hc : construct H [] bits = Except.ok t) :
    t.output_length = (bits + 7) / 8 ∧
    (∀ xs, (t.add_data xs).output_length = t.output_length) ∧
    (∀ n, 1 ≤ n → n ≤ 8 * ((n + 7) / 8) ∧ 8 * ((n + 7) / 8) < n + 8) := by
  obtain ⟨hb1, hb2, ht⟩ := (construct_eq_ok H [] bits t).mp hc
  subst ht
  exact ⟨rfl, fun xs => rfl, fun n hn => by omega⟩

/-- C6: two independently constructed adapters of identical configuration are
equal and produce identical output on the same message: update and finalize
are deterministic functions of the configuration and the input bytes. -/
theorem deterministic_digest (H : HashSpec) (bits : Nat) (t1 t2 : Truncated_Hash)
    (h1 : construct H [] bits = Except.ok t1)
    (h2 : construct H [] bits = Except.ok t2) (m : List Nat) :
    t1 = t2 ∧ (t1.add_data m).final_result = (t2.add_data m).final_result := by
  rw [h1] at h2
  injection h2 with h
  subst h
  exact ⟨rfl, rfl⟩

/-- C8: update forwards the bytes verbatim to the wrapped hash accumulation and
changes nothing else (bit count, scratch buffer and hash function untouched);
calls compose by concatenation and a zero-byte update is the identity. -/
theorem add_data_forwards (t : Truncated_Hash) (xs ys : List Nat) :
    (t.add_data xs).m_acc = t.m_acc ++ xs ∧
    (t.add_data xs).m_output_bits = t.m_output_bits ∧
    (t.add_data xs).m_buffer = t.m_buffer ∧
    (t.add_data xs).H = t.H ∧
    (t.add_data xs).add_data ys = t.add_data (xs ++ ys) ∧
    t.add_data [] = t := by
  refine ⟨rfl, rfl, rfl, rfl, ?_, ?_⟩
  · simp [Truncated_Hash.add_data]
  · simp [Truncated_Hash.add_data]

/-- Witness for C3 at the full-width concrete adapter tval16 and message [7]. -/
theorem full_width_identity_witness :
    Option.map Prod.fst ((tval16.add_data [7]).final_result) =
      some (toyHash.digest [7]) ∧
    (∀ n, 1 ≤ n → n % 8 = 0 → bitmask_code (bits_in_last_byte n) = 255) :=
  full_width_identity toyHash tval16 [7] rfl toyHash_wf

/-- Witness for C5 at the concrete adapter tval. -/
theorem output_length_ceil_witness :
    tval.output_length = (12 + 7) / 8 ∧
    (∀ xs, (tval.add_data xs).output_length = tval.output_length) ∧
    (∀ n, 1 ≤ n → n ≤ 8 * ((n + 7) / 8) ∧ 8 * ((n + 7) / 8) < n + 8) :=
  output_length_ceil toyHash 12 tval rfl

/-- Witness for C6 at the concrete adapter tval and message [9]. -/
theorem deterministic_digest_witness :
    tval = tval ∧
    (tval.add_data [9]).final_result = (tval.add_data [9]).final_result :=
  deterministic_digest toyHash 12 tval tval rfl rfl [9]

/-- C4: after every finalize on a constructed adapter, the internal scratch
buffer (sized to the native output length of the wrapped hash) is entirely
zero. -/
theorem scratch_buffer_zeroised (H : HashSpec) (acc : List Nat) (bits : Nat)
    (t : Truncated_Hash) (m out : List Nat) (t2 : Truncated_Hash)
    (hc : construct H acc bits = Except.ok t)
    (hf : (t.add_data m).final_result = some (out, t2)) :
    t2.m_buffer = List.replicate H.nativeBytes 0 ∧ (∀ x ∈ t2.m_buffer, x = 0) := by
  obtain ⟨hb1, hb2, ht⟩ := (construct_eq_ok H acc bits t).mp hc
  subst ht
  unfold Truncated_Hash.final_result at hf
  simp only [Truncated_Hash.add_data] at hf
  split_ifs at hf with hg1 hg2
  · injection hf with hf
    injection hf with hf1 hf2
    subst hf2
    refine ⟨by simp, fun x hx => List.eq_of_mem_replicate hx⟩

/-- Witness for C4 at the concrete adapter tval, message [1, 2, 3]. -/
theorem scratch_buffer_zeroised_witness :
    (⟨toyHash, 12, [], List.replicate 2 0⟩ : Truncated_Hash).m_buffer =
      List.replicate toyHash.nativeBytes 0 ∧
    (∀ x ∈ (⟨toyHash, 12, [], List.replicate 2 0⟩ : Truncated_Hash).m_buffer, x = 0) :=
  scratch_buffer_zeroised toyHash [] 12 tval [1, 2, 3] [3, 32]
    ⟨toyHash, 12, [], List.replicate 2 0⟩ rfl rfl

/-- C9: clear resets the wrapped hash to its initial empty state and changes
nothing else; afterwards the adapter produces the same digests as a freshly
constructed adapter of the same configuration. -/
theorem clear_resets (t t0 : Truncated_Hash)
    (h : construct t.H [] t.m_output_bits = Except.ok t0) :
    t.clear.m_output_bits = t.m_output_bits ∧
    t.clear.H = t.H ∧
    t.clear.m_buffer = t.m_buffer ∧
    t.clear.m_acc = [] ∧
    (∀ m, Option.map Prod.fst ((t.clear.add_data m).final_result) =
          Option.map Prod.fst ((t0.add_data m).final_result)) := by
  obtain ⟨hb1, hb2, ht⟩ := (construct_eq_ok t.H [] t.m_output_bits t0).mp h
  subst ht
  refine ⟨rfl, rfl, rfl, rfl, fun m => ?_⟩
  simp only [Truncated_Hash.clear, Truncated_Hash.add_data, List.nil_append]
  unfold Truncated_Hash.final_result
  simp only [Truncated_Hash.output_length]
  split_ifs <;> simp

/-- Witness for C9 at a concrete adapter with pending input [4, 5]. -/
theorem clear_resets_witness :
    (⟨toyHash, 12, [4, 5], List.replicate 2 0⟩ : Truncated_Hash).clear.m_output_bits = 12 ∧
    (⟨toyHash, 12, [4, 5], List.replicate 2 0⟩ : Truncated_Hash).clear.H = toyHash ∧
    (⟨toyHash, 12, [4, 5], List.replicate 2 0⟩ : Truncated_Hash).clear.m_buffer =
      List.replicate 2 0 ∧
    (⟨toyHash, 12, [4, 5], List.replicate 2 0⟩ : Truncated_Hash).clear.m_acc = [] ∧
    (∀ m, Option.map Prod.fst
        (((⟨toyHash, 12, [4, 5], List.replicate 2 0⟩ : Truncated_Hash).clear.add_data m).final_result) =
      Option.map Prod.fst ((tval.add_data m).final_result)) :=
  clear_resets ⟨toyHash, 12, [4, 5], List.replicate 2 0⟩ tval rfl

/-- C10: for every adapter satisfying the constructor invariant, finalize is
safe: the assertion holds, the copy stays inside the scratch buffer, the
last-byte access is in range and the call produces a result; the invariant is
established by construction and preserved by update and clear. -/
theorem final_result_safe (t : Truncated_Hash) (hwf : t.H.WF) (hv : Valid t) :
    t.m_output_bits ≤ t.H.nativeBytes * 8 ∧
    t.output_length ≤ (t.H.digest t.m_acc).length ∧
    1 ≤ t.output_length ∧
    (t.final_result).isSome = true ∧
    (∀ xs, Valid (t.add_data xs)) ∧
    Valid t.clear ∧
    (∀ H acc bits s, construct H acc bits = Except.ok s → Valid s) := by
  obtain ⟨hwl, hwb⟩ := hwf
  obtain ⟨hv1, hv2⟩ := hv
  have hlen : t.output_length ≤ (t.H.digest t.m_acc).length := by
    rw [hwl]
    simp only [Truncated_Hash.output_length]
    omega
  have hge : 1 ≤ t.output_length := by
    simp only [Truncated_Hash.output_length]
    omega
  refine ⟨hv2, hlen, hge, ?_, fun xs => ⟨hv1, hv2⟩, ⟨hv1, hv2⟩, ?_⟩
  · unfold Truncated_Hash.final_result
    rw [if_neg (by omega), if_pos ⟨hlen, hge⟩]
    rfl
  · intro H acc bits s hs
    obtain ⟨h1, h2, hs2⟩ := (construct_eq_ok H acc bits s).mp hs
    subst hs2
    exact ⟨h1, h2⟩

/-- Witness for C10 at the concrete adapter tval. -/
theorem final_result_safe_witness :
    tval.m_output_bits ≤ tval.H.nativeBytes * 8 ∧
    tval.output_length ≤ (tval.H.digest tval.m_acc).length ∧
    1 ≤ tval.output_length ∧
    (tval.final_result).isSome = true ∧
    (∀ xs, Valid (tval.add_data xs)) ∧
    Valid tval.clear ∧
    (∀ H acc bits s, construct H acc bits = Except.ok s → Valid s) :=
  final_result_safe tval toyHash_wf ⟨by decide, by decide⟩

/-- C7: copy_state yields a new independent adapter with the same bit count
and a deep copy of the in-progress wrapped-hash state; in a heap of live
adapters, feeding bytes into the copy leaves the original (and hence its
eventual digest) unchanged, and feeding bytes into the original leaves the
copy unchanged. -/
theorem copy_state_isolation (w : List Truncated_Hash) (i : Nat)
    (t : Truncated_Hash) (hi : w[i]? = some t) (hv : Valid t) :
    ∃ t2, t.copy_state = Except.ok t2 ∧
      t2.m_output_bits = t.m_output_bits ∧
      t2.m_acc = t.m_acc ∧
      (worldCopy w i)[w.length]? = some t2 ∧
      (∀ bs, (worldUpdate (worldCopy w i) w.length bs)[i]? = some t) ∧
      (∀ bs, Option.map Truncated_Hash.final_result
          ((worldUpdate (worldCopy w i) w.length bs)[i]?) =
        some t.final_result) ∧
      (∀ bs, (worldUpdate (worldCopy w i) i bs)[w.length]? = some t2) := by
  obtain ⟨hv1, hv2⟩ := hv
  obtain ⟨hilt, -⟩ := List.getElem?_eq_some.mp hi
  have hcs : t.copy_state =
      Except.ok ⟨t.H, t.m_output_bits, t.m_acc, List.replicate t.H.nativeBytes 0⟩ := by
    unfold Truncated_Hash.copy_state construct
    rw [if_neg (by omega), if_neg (by omega)]
  set t2 : Truncated_Hash :=
    ⟨t.H, t.m_output_bits, t.m_acc, List.replicate t.H.nativeBytes 0⟩ with ht2
  have hw1 : worldCopy w i = w ++ [t2] := by
    unfold worldCopy
    simp only [hi, hcs]
  have hlast : (w ++ [t2])[w.length]? = some t2 := List.getElem?_concat_length w t2
  have hgeti : (w ++ [t2])[i]? = some t := by
    rw [List.getElem?_append, if_pos hilt]
    exact hi
  have horig : ∀ bs, (worldUpdate (worldCopy w i) w.length bs)[i]? = some t := by
    intro bs
    rw [hw1]
    unfold worldUpdate
    simp only [hlast]
    rw [List.getElem?_set_ne (by omega)]
    exact hgeti
  refine ⟨t2, hcs, rfl, rfl, by rw [hw1]; exact hlast, horig, ?_, ?_⟩
  · intro bs
    rw [horig bs]
    rfl
  · intro bs
    rw [hw1]
    unfold worldUpdate
    simp only [hgeti]
    rw [List.getElem?_set_ne (by omega)]
    exact hlast

/-- Witness for C7 on the one-adapter heap holding tval. -/
theorem copy_state_isolation_witness :
    ∃ t2, tval.copy_state = Except.ok t2 ∧
      t2.m_output_bits = tval.m_output_bits ∧
      t2.m_acc = tval.m_acc ∧
      (worldCopy [tval] 0)[List.length [tval]]? = some t2 ∧
      (∀ bs, (worldUpdate (worldCopy [tval] 0) (List.length [tval]) bs)[0]? = some tval) ∧
      (∀ bs, Option.map Truncated_Hash.final_result
          ((worldUpdate (worldCopy [tval] 0) (List.length [tval]) bs)[0]?) =
        some tval.final_result) ∧
      (∀ bs, (worldUpdate (worldCopy [tval] 0) 0 bs)[List.length [tval]]? = some t2) :=
  copy_state_isolation [tval] 0 tval rfl ⟨by decide, by decide⟩

end TruncHash